import Mathlib

/-!
# Verification of the checked-copy sync engine

A shallow embedding of `src/main.rs`: a tool that mirrors a source directory
tree into a destination tree, verifying every copy by comparing a content
fingerprint (an `Imprint`) computed before and after the copy, and optionally
deleting source files once their destination copy is confirmed identical.

Paths are modelled as lists of components; the filesystem as an association
list from paths to nodes (directory or file-with-content).  Fingerprints are
equal iff contents are equal, so the file content itself serves as the
fingerprint value.  The external filesystem primitives (`fs::copy`,
`fs::create_dir_all`, `fs::remove_file`, `Imprint::new`, `FPath::exists`) are
modelled as pure transformations of the filesystem map; the copy primitive is
a parameter of the engine (with `fsCopy` the faithful model) so that the
post-copy verification logic can be exercised on a corrupting primitive, as
the specification's corruption scenario demands.
-/

/-- A filesystem path, as its list of components. -/
abbrev FPath := List String

/-- A filesystem node: a directory, or a file with (opaque) content. -/
inductive Node where
  | dir : Node
  | file : Nat → Node
deriving DecidableEq, Repr

/-- A filesystem: a finite map from paths to nodes, as an association list. -/
abbrev FS := List (FPath × Node)

/-- Look a path up in the filesystem. -/
def fsLookup : FS → FPath → Option Node
  | [], _ => none
  | (q, n) :: rest, p => if q = p then some n else fsLookup rest p

/-- Model of `FPath::exists`. -/
def pathExists (fs : FS) (p : FPath) : Bool :=
  (fsLookup fs p).isSome

/-- Remove every binding of a path from the filesystem. -/
def fsErase : FS → FPath → FS
  | [], _ => []
  | (q, n) :: rest, p => if q = p then fsErase rest p else (q, n) :: fsErase rest p

/-- Bind a path to a node, replacing any previous binding. -/
def fsInsert (fs : FS) (p : FPath) (n : Node) : FS :=
  (p, n) :: fsErase fs p

/-- Errors surfaced by the engine, modelling `io::Error` values: file-not-found
style I/O failures, the "attempt to copy to self" guard of `Object::copy_to`,
and the `BadCopy` record (source and destination of a failed verification). -/
inductive FsError where
  | notFound : FPath → FsError
  | isADirectory : FPath → FsError
  | copyToSelf : FsError
  | badCopy : FPath → FPath → FsError
deriving DecidableEq, Repr

/-- Model of `Imprint::new`: the content fingerprint of a file.  Fingerprints
are equal iff byte contents are equal, so the content stands for its own
fingerprint.  Fails when the path does not name a readable file. -/
def imprint (fs : FS) (p : FPath) : Except FsError Nat :=
  match fsLookup fs p with
  | some (Node.file c) => Except.ok c
  | _ => Except.error (FsError.notFound p)

/-- One pass of `fs::create_dir_all`: after `createDirAllAux fs p k`, the first
`k` nonempty prefixes of `p` exist (each created as a directory if absent). -/
def createDirAllAux (fs : FS) (p : FPath) : Nat → FS
  | 0 => fs
  | k + 1 =>
    let acc := createDirAllAux fs p k
    let q := p.take (k + 1)
    if pathExists acc q then acc else fsInsert acc q Node.dir

/-- Model of `fs::create_dir_all`: create the directory and any missing
ancestor directories. -/
def createDirAll (fs : FS) (p : FPath) : FS :=
  createDirAllAux fs p p.length

/-- Model of `fs::remove_file`: remove a file, failing if the path does not
name a file. -/
def removeFile (fs : FS) (p : FPath) : Except FsError FS :=
  match fsLookup fs p with
  | some (Node.file _) => Except.ok (fsErase fs p)
  | _ => Except.error (FsError.notFound p)

/-- Model of `fs::copy`: read the source file's bytes and write them to the
destination, overwriting existing destination content; fails if the source is
not a readable file, if the destination is an existing directory, or if the
destination's parent directory is missing. -/
def fsCopy (fs : FS) (src dst : FPath) : Except FsError FS :=
  match fsLookup fs src with
  | some (Node.file c) =>
    match fsLookup fs dst with
    | some Node.dir => Except.error (FsError.isADirectory dst)
    | _ =>
      if dst.dropLast = [] ∨ pathExists fs dst.dropLast = true then
        Except.ok (fsInsert fs dst (Node.file c))
      else
        Except.error (FsError.notFound dst.dropLast)
  | _ => Except.error (FsError.notFound src)

/-- The type of the underlying copy primitive (the external collaborator the
engine calls through `Object::copy_to`); `fsCopy` is its faithful model. -/
abbrev CopyPrim := FS → FPath → FPath → Except FsError FS

/-- Model of `walkdir::DirEntry`: the entry's path and its file type. -/
inductive FType where
  | dir : FType
  | file : FType
  | other : FType
deriving DecidableEq, Repr

structure DirEntry where
  path : FPath
  ftype : FType
deriving DecidableEq, Repr

/-- Model of `DirEntry::file_name`: the final component of the entry's path
(for the walk's root entry, the final component of the root path itself). -/
def DirEntry.fileName (e : DirEntry) : String :=
  e.path.getLastD ""

/-- A walk error (`walkdir::Error`), produced in place of an entry whose
filesystem metadata cannot be read. -/
inductive WalkErr where
  | unreadable : FPath → WalkErr
deriving DecidableEq, Repr

/-- A source directory tree, used to generate walks: a file with content, or a
directory with a list of children. -/
inductive FsTree where
  | file : String → Nat → FsTree
  | dir : String → List FsTree → FsTree

def FsTree.name : FsTree → String
  | FsTree.file n _ => n
  | FsTree.dir n _ => n

mutual

/-- Model of `WalkDir::new(p)` over the tree rooted at path `p`: the root's
entry first, then each child subtree depth-first (a directory's entry always
precedes the entries of its contents). -/
def walkDir (p : FPath) : FsTree → List DirEntry
  | FsTree.file _ _ => [⟨p, FType.file⟩]
  | FsTree.dir _ children => ⟨p, FType.dir⟩ :: walkForest p children

def walkForest (p : FPath) : List FsTree → List DirEntry
  | [] => []
  | t :: ts => walkDir (p ++ [t.name]) t ++ walkForest p ts

end

mutual

/-- The filesystem contents corresponding to a tree mounted at path `p`. -/
def treeFS (p : FPath) : FsTree → FS
  | FsTree.file _ c => [(p, Node.file c)]
  | FsTree.dir _ children => (p, Node.dir) :: forestFS p children

def forestFS (p : FPath) : List FsTree → FS
  | [] => []
  | t :: ts => treeFS (p ++ [t.name]) t ++ forestFS p ts

end

/-- Model of `Opts` (the parsed command line): source and destination roots
and the two boolean flags. -/
structure Opts where
  source : FPath
  destination : FPath
  include_hidden_files : Bool
  remove_copied_files : Bool
deriving DecidableEq, Repr

/-- Model of `Object`: a walked entry together with its path relative to the
source root. -/
structure Object where
  file_type : FType
  absolute_path : FPath
  relative_path : FPath
deriving DecidableEq, Repr

/-- Model of `FPath::strip_prefix` on component lists: remove a leading root,
if it is one. -/
def stripRoot (base p : FPath) : Option FPath :=
  if base.isPrefixOf p then some (p.drop base.length) else none

/-- Model of `Object::new`: records the entry's type and absolute path and
strips the walk root to obtain the relative path.  The source performs the
strip with `.unwrap()`; the `none` case models the panic that would occur if
the root were not a proper leading part of the entry's path. -/
def Object.new (base : FPath) (entry : DirEntry) : Option Object :=
  match stripRoot base entry.path with
  | some rel =>
    some { file_type := entry.ftype, absolute_path := entry.path, relative_path := rel }
  | none => none

/-- Model of `Object::copy_to`: guard against copying a file onto itself, then
invoke the underlying copy primitive. -/
def Object.copy_to (copyPrim : CopyPrim) (o : Object) (fs : FS) (destination : FPath) :
    Except FsError FS :=
  if o.absolute_path = destination then Except.error FsError.copyToSelf
  else copyPrim fs o.absolute_path destination

/-- Model of `starts_with('.')` on a file name: whether the first character is
the hidden-file marker. -/
def startsWithDot (s : String) : Bool :=
  match s.data with
  | [] => false
  | c :: _ => decide (c = '.')

/-- The filtering applied to the raw walk output in `run`: drop errored
entries (`entry.ok()?`), drop hidden-named entries unless configured
otherwise, and build an `Object` for each survivor. -/
def sourceEntries (opts : Opts) (items : List (Except WalkErr DirEntry)) : List Object :=
  items.filterMap fun item =>
    match item with
    | Except.error _ => none
    | Except.ok entry =>
      if !opts.include_hidden_files && startsWithDot entry.fileName then none
      else Object.new opts.source entry

/-- One reporter line: `created`, `exists` or `copied`, with the entry's
relative path. -/
inductive Report where
  | created : FPath → Report
  | exists' : FPath → Report
  | copied : FPath → Report
deriving DecidableEq, Repr

/-- The condition of `run`'s already-synced test:
`destination.exists() && source_imprint == Imprint::new(&destination)?`
(short-circuit: the destination fingerprint is only computed, and its I/O
error only propagated, when the destination exists). -/
def fileAlreadySynced (fs : FS) (source_imprint : Nat) (destination : FPath) :
    Except FsError Bool :=
  if pathExists fs destination then
    match imprint fs destination with
    | Except.ok d => Except.ok (decide (source_imprint = d))
    | Except.error e => Except.error e
  else
    Except.ok false

/-- The file-entry branch of `run`'s loop body: fingerprint the source; if the
destination exists with an equal fingerprint, report `exists` (removing the
source when configured); otherwise copy, re-fingerprint the destination,
fail with `BadCopy` on mismatch, and report `copied` (removing the source
when configured). -/
def processFile (copyPrim : CopyPrim) (opts : Opts) (fs : FS) (o : Object)
    (destination : FPath) : Except FsError (FS × List Report) :=
  match imprint fs o.absolute_path with
  | Except.error e => Except.error e
  | Except.ok source_imprint =>
    match fileAlreadySynced fs source_imprint destination with
    | Except.error e => Except.error e
    | Except.ok true =>
      match if opts.remove_copied_files then removeFile fs o.absolute_path else Except.ok fs with
      | Except.error e => Except.error e
      | Except.ok fs₁ => Except.ok (fs₁, [Report.exists' o.relative_path])
    | Except.ok false =>
      match Object.copy_to copyPrim o fs destination with
      | Except.error e => Except.error e
      | Except.ok fs₂ =>
        match imprint fs₂ destination with
        | Except.error e => Except.error e
        | Except.ok destination_imprint =>
          if source_imprint = destination_imprint then
            match if opts.remove_copied_files then removeFile fs₂ o.absolute_path
                  else Except.ok fs₂ with
            | Except.error e => Except.error e
            | Except.ok fs₃ => Except.ok (fs₃, [Report.copied o.relative_path])
          else
            Except.error (FsError.badCopy o.absolute_path destination)

/-- The body of `run`'s loop for one entry: directories are created (with
missing ancestors) when absent and reported `created`; files go through
`processFile`; other entry kinds are passed over. -/
def step (copyPrim : CopyPrim) (opts : Opts) (fs : FS) (o : Object) :
    Except FsError (FS × List Report) :=
  let destination := opts.destination ++ o.relative_path
  if o.file_type = FType.dir then
    if pathExists fs destination then Except.ok (fs, [])
    else Except.ok (createDirAll fs destination, [Report.created o.relative_path])
  else if o.file_type = FType.file then
    processFile copyPrim opts fs o destination
  else
    Except.ok (fs, [])

/-- `run`'s loop over the filtered entries, threading the filesystem and
collecting reporter lines; the first error aborts the remainder. -/
def runLoop (copyPrim : CopyPrim) (opts : Opts) : FS → List Object →
    Except FsError (FS × List Report)
  | fs, [] => Except.ok (fs, [])
  | fs, o :: rest =>
    match step copyPrim opts fs o with
    | Except.error e => Except.error e
    | Except.ok (fs₁, reports) =>
      match runLoop copyPrim opts fs₁ rest with
      | Except.error e => Except.error e
      | Except.ok (fs₂, more) => Except.ok (fs₂, reports ++ more)

/-- Model of `run`: filter the raw walk output, then process every surviving
entry in order. -/
def run (copyPrim : CopyPrim) (opts : Opts) (items : List (Except WalkErr DirEntry))
    (fs : FS) : Except FsError (FS × List Report) :=
  runLoop copyPrim opts fs (sourceEntries opts items)

/-- A corrupting copy primitive (the specification's simulated truncating
copy): it writes content `99` to the destination regardless of the source's
bytes.  Used to exercise the engine's post-copy verification. -/
def corruptingCopy : CopyPrim :=
  fun fs _ dst => Except.ok (fsInsert fs dst (Node.file 99))

/-- A copy primitive that always fails with an I/O error. -/
def failingCopy : CopyPrim :=
  fun _ _ _ => Except.error (FsError.notFound [])

/-- An object is synced in a filesystem when its source path holds a file
whose content also sits at the object's computed destination path. -/
def synced (opts : Opts) (fs : FS) (o : Object) : Prop :=
  ∃ c, fsLookup fs o.absolute_path = some (Node.file c) ∧
    fsLookup fs (opts.destination ++ o.relative_path) = some (Node.file c)

/-! ### Basic filesystem lemmas -/

theorem fsLookup_erase (fs : FS) (p q : FPath) :
    fsLookup (fsErase fs p) q = if p = q then none else fsLookup fs q := by
  induction fs with
  | nil => simp [fsErase, fsLookup]
  | cons e rest ih =>
    obtain ⟨a, m⟩ := e
    by_cases hap : a = p
    · subst hap
      by_cases hq : a = q
      · subst hq; simp [fsErase, fsLookup, ih]
      · simp [fsErase, fsLookup, hq, ih]
    · by_cases hq : a = q
      · subst hq
        have hpq : p ≠ a := fun h => hap h.symm
        simp [fsErase, fsLookup, hap, hpq]
      · simp [fsErase, fsLookup, hap, hq, ih]

theorem fsLookup_insert (fs : FS) (p : FPath) (n : Node) (q : FPath) :
    fsLookup (fsInsert fs p n) q = if p = q then some n else fsLookup fs q := by
  by_cases h : p = q <;> simp [fsInsert, fsLookup, fsLookup_erase, h]

theorem pathExists_insert (fs : FS) (p : FPath) (n : Node) (q : FPath) :
    pathExists (fsInsert fs p n) q = (if p = q then true else pathExists fs q) := by
  by_cases h : p = q <;> simp [pathExists, fsLookup_insert, h]

/-! ### Prefix helpers -/

theorem isPrefixOfIff {l₁ l₂ : FPath} : l₁.isPrefixOf l₂ = true ↔ l₁ <+: l₂ :=
  List.isPrefixOf_iff_prefix

theorem prefixTotal {l₁ l₂ l₃ : List String} (h₁ : l₁ <+: l₃) (h₂ : l₂ <+: l₃) :
    l₁ <+: l₂ ∨ l₂ <+: l₁ := by
  rcases Nat.le_total l₁.length l₂.length with h | h
  · left
    rw [List.prefix_iff_eq_take.mp h₁, List.prefix_iff_eq_take.mp h₂]
    exact List.take_isPrefix_take.mpr (Or.inl h)
  · right
    rw [List.prefix_iff_eq_take.mp h₁, List.prefix_iff_eq_take.mp h₂]
    exact List.take_isPrefix_take.mpr (Or.inl h)

theorem stripRoot_eq_some {base p r : FPath} (h : stripRoot base p = some r) :
    p = base ++ r := by
  unfold stripRoot at h
  by_cases hb : base.isPrefixOf p
  · simp only [hb, if_true, Option.some.injEq] at h
    subst h
    have hpre : base <+: p := isPrefixOfIff.mp hb
    conv_lhs => rw [← List.take_append_drop base.length p]
    rw [← List.prefix_iff_eq_take.mp hpre]
  · simp [hb] at h

theorem stripRoot_append (base r : FPath) : stripRoot base (base ++ r) = some r := by
  have hb : base.isPrefixOf (base ++ r) = true :=
    isPrefixOfIff.mpr (List.prefix_append base r)
  simp [stripRoot, hb, List.drop_left]

theorem Object.new_eq_some {base : FPath} {e : DirEntry} {o : Object}
    (h : Object.new base e = some o) :
    o.file_type = e.ftype ∧ o.absolute_path = e.path ∧
      e.path = base ++ o.relative_path := by
  unfold Object.new at h
  cases hs : stripRoot base e.path with
  | none => rw [hs] at h; exact absurd h (by simp)
  | some rel =>
    rw [hs] at h
    cases h
    exact ⟨rfl, rfl, stripRoot_eq_some hs⟩

/-! ### Inversion lemmas for the modelled primitives -/

theorem imprint_eq_ok {fs : FS} {p : FPath} {c : Nat} :
    imprint fs p = Except.ok c ↔ fsLookup fs p = some (Node.file c) := by
  unfold imprint
  cases h : fsLookup fs p with
  | none => simp
  | some n => cases n <;> simp

theorem removeFile_eq_ok {fs fs' : FS} {p : FPath} (h : removeFile fs p = Except.ok fs') :
    (∃ c, fsLookup fs p = some (Node.file c)) ∧ fs' = fsErase fs p := by
  unfold removeFile at h
  cases hl : fsLookup fs p with
  | none => rw [hl] at h; exact absurd h (by simp)
  | some n =>
    rw [hl] at h
    cases n with
    | dir => exact absurd h (by simp)
    | file c =>
      cases h
      exact ⟨⟨c, rfl⟩, rfl⟩

theorem fsCopy_eq_ok {fs fs' : FS} {src dst : FPath} (h : fsCopy fs src dst = Except.ok fs') :
    ∃ c, fsLookup fs src = some (Node.file c) ∧ fs' = fsInsert fs dst (Node.file c) := by
  unfold fsCopy at h
  cases hl : fsLookup fs src with
  | none => rw [hl] at h; exact absurd h (by simp)
  | some n =>
    rw [hl] at h
    cases n with
    | dir => exact absurd h (by simp)
    | file c =>
      refine ⟨c, rfl, ?_⟩
      cases hd : fsLookup fs dst with
      | none =>
        rw [hd] at h
        by_cases hp : dst.dropLast = [] ∨ pathExists fs dst.dropLast = true
        · simp only [hp, if_true] at h; cases h; rfl
        · simp [hp] at h
      | some m =>
        rw [hd] at h
        cases m with
        | dir => exact absurd h (by simp)
        | file c' =>
          by_cases hp : dst.dropLast = [] ∨ pathExists fs dst.dropLast = true
          · simp only [hp, if_true] at h; cases h; rfl
          · simp [hp] at h

theorem fileAlreadySynced_eq_ok_true {fs : FS} {si : Nat} {d : FPath}
    (h : fileAlreadySynced fs si d = Except.ok true) :
    pathExists fs d = true ∧ imprint fs d = Except.ok si := by
  unfold fileAlreadySynced at h
  by_cases he : pathExists fs d
  · refine ⟨he, ?_⟩
    rw [if_pos he] at h
    cases hi : imprint fs d with
    | error e => rw [hi] at h; exact absurd h (by simp)
    | ok di =>
      rw [hi] at h
      simp only [Except.ok.injEq, decide_eq_true_eq] at h
      subst h
      rfl
  · rw [if_neg he] at h
    exact absurd h (by simp)

theorem fileAlreadySynced_true_intro {fs : FS} {si : Nat} {d : FPath}
    (he : pathExists fs d = true) (hi : imprint fs d = Except.ok si) :
    fileAlreadySynced fs si d = Except.ok true := by
  unfold fileAlreadySynced
  rw [if_pos he, hi]
  simp

/-! ### Lemmas about directory creation -/

theorem createDirAllAux_preserves {fs : FS} {q : FPath} {n : Node} (p : FPath) (k : Nat)
    (h : fsLookup fs q = some n) :
    fsLookup (createDirAllAux fs p k) q = some n := by
  induction k with
  | zero => exact h
  | succ k ih =>
    unfold createDirAllAux
    by_cases hx : pathExists (createDirAllAux fs p k) (p.take (k + 1)) = true
    · rw [if_pos hx]; exact ih
    · rw [if_neg hx, fsLookup_insert]
      by_cases hq : p.take (k + 1) = q
      · exfalso
        apply hx
        rw [hq]
        simp [pathExists, ih]
      · simp [hq, ih]

theorem createDirAllAux_mono {fs : FS} {q : FPath} (p : FPath) (k : Nat)
    (h : pathExists fs q = true) :
    pathExists (createDirAllAux fs p k) q = true := by
  simp only [pathExists, Option.isSome_iff_exists] at h ⊢
  obtain ⟨n, hn⟩ := h
  exact ⟨n, createDirAllAux_preserves p k hn⟩

theorem createDirAllAux_frame {fs : FS} {q : FPath} (p : FPath) (k : Nat)
    (h : ¬ q <+: p) :
    fsLookup (createDirAllAux fs p k) q = fsLookup fs q := by
  induction k with
  | zero => rfl
  | succ k ih =>
    unfold createDirAllAux
    by_cases hx : pathExists (createDirAllAux fs p k) (p.take (k + 1)) = true
    · rw [if_pos hx]; exact ih
    · rw [if_neg hx, fsLookup_insert]
      have hne : p.take (k + 1) ≠ q := by
        intro hqe
        exact h (hqe ▸ List.take_prefix (k + 1) p)
      simp [hne, ih]

theorem createDirAllAux_step_exists {fs : FS} (p : FPath) (k : Nat) :
    pathExists (createDirAllAux fs p (k + 1)) (p.take (k + 1)) = true := by
  unfold createDirAllAux
  by_cases hx : pathExists (createDirAllAux fs p k) (p.take (k + 1)) = true
  · rw [if_pos hx]; exact hx
  · rw [if_neg hx]
    simp [pathExists, fsLookup_insert]

theorem createDirAllAux_creates {fs : FS} (p : FPath) (k : Nat) :
    ∀ j, j < k → pathExists (createDirAllAux fs p k) (p.take (j + 1)) = true := by
  induction k with
  | zero => intro j hj; exact absurd hj (Nat.not_lt_zero j)
  | succ k ih =>
    intro j hj
    rcases Nat.lt_succ_iff_lt_or_eq.mp hj with hlt | heq
    · have hk := ih j hlt
      unfold createDirAllAux
      by_cases hx : pathExists (createDirAllAux fs p k) (p.take (k + 1)) = true
      · rw [if_pos hx]; exact hk
      · rw [if_neg hx]
        simp only [pathExists, fsLookup_insert]
        by_cases hq : p.take (k + 1) = p.take (j + 1)
        · simp [hq]
        · simp only [hq, if_false]
          exact hk
    · subst heq
      exact createDirAllAux_step_exists p j

theorem createDirAll_creates {fs : FS} {p : FPath} (hp : p ≠ []) :
    pathExists (createDirAll fs p) p = true := by
  have hlen : 0 < p.length := List.length_pos.mpr hp
  have := @createDirAllAux_creates fs p p.length (p.length - 1)
    (Nat.sub_lt hlen Nat.one_pos)
  rwa [Nat.sub_add_cancel (Nat.one_le_iff_ne_zero.mpr (Nat.pos_iff_ne_zero.mp hlen)),
    List.take_length] at this

theorem createDirAll_ancestors {fs : FS} (p : FPath) :
    ∀ j, j < p.length → pathExists (createDirAll fs p) (p.take (j + 1)) = true :=
  createDirAllAux_creates p p.length

theorem createDirAll_preserves {fs : FS} {q : FPath} {n : Node} (p : FPath)
    (h : fsLookup fs q = some n) :
    fsLookup (createDirAll fs p) q = some n :=
  createDirAllAux_preserves p p.length h

theorem createDirAll_mono {fs : FS} {q : FPath} (p : FPath)
    (h : pathExists fs q = true) :
    pathExists (createDirAll fs p) q = true :=
  createDirAllAux_mono p p.length h

theorem createDirAll_frame {fs : FS} {q : FPath} (p : FPath) (h : ¬ q <+: p) :
    fsLookup (createDirAll fs p) q = fsLookup fs q :=
  createDirAllAux_frame p p.length h

/-! ### Unfolding lemmas for the engine's loop body -/

theorem step_dir_absent {cp : CopyPrim} {opts : Opts} {fs : FS} {o : Object}
    (hd : o.file_type = FType.dir)
    (hx : pathExists fs (opts.destination ++ o.relative_path) = false) :
    step cp opts fs o =
      Except.ok (createDirAll fs (opts.destination ++ o.relative_path),
        [Report.created o.relative_path]) := by
  simp [step, hd, hx]

theorem step_dir_present {cp : CopyPrim} {opts : Opts} {fs : FS} {o : Object}
    (hd : o.file_type = FType.dir)
    (hx : pathExists fs (opts.destination ++ o.relative_path) = true) :
    step cp opts fs o = Except.ok (fs, []) := by
  simp [step, hd, hx]

theorem step_file {cp : CopyPrim} {opts : Opts} {fs : FS} {o : Object}
    (hf : o.file_type = FType.file) :
    step cp opts fs o = processFile cp opts fs o (opts.destination ++ o.relative_path) := by
  simp [step, hf]

theorem step_other {cp : CopyPrim} {opts : Opts} {fs : FS} {o : Object}
    (ho : o.file_type = FType.other) :
    step cp opts fs o = Except.ok (fs, []) := by
  simp [step, ho]

theorem runLoop_cons_error {cp : CopyPrim} {opts : Opts} {fs : FS} {o : Object}
    {rest : List Object} {e : FsError} (h : step cp opts fs o = Except.error e) :
    runLoop cp opts fs (o :: rest) = Except.error e := by
  conv_lhs => rw [runLoop]
  rw [h]

theorem runLoop_cons_ok {cp : CopyPrim} {opts : Opts} {fs fs₁ : FS} {o : Object}
    {rest : List Object} {reports : List Report}
    (h : step cp opts fs o = Except.ok (fs₁, reports)) :
    runLoop cp opts fs (o :: rest) =
      Except.map (fun pr => (pr.1, reports ++ pr.2)) (runLoop cp opts fs₁ rest) := by
  conv_lhs => rw [runLoop]
  rw [h]
  cases hr : runLoop cp opts fs₁ rest with
  | error e => simp [hr, Except.map]
  | ok pr => cases pr; simp [hr, Except.map]

/-- C1: for a file entry that is copied, the destination fingerprint is
recomputed right after the copy and compared against the source fingerprint
taken before it; on a mismatch the loop returns a `BadCopy` error naming the
source and destination paths, regardless of the remaining entries (which are
therefore never processed). -/
theorem badCopy_aborts_run
    (cp : CopyPrim) (opts : Opts) (fs fs₂ : FS) (o : Object) (rest : List Object)
    (si di : Nat)
    (hf : o.file_type = FType.file)
    (hsi : imprint fs o.absolute_path = Except.ok si)
    (hns : fileAlreadySynced fs si (opts.destination ++ o.relative_path) = Except.ok false)
    (hcp : Object.copy_to cp o fs (opts.destination ++ o.relative_path) = Except.ok fs₂)
    (hdi : imprint fs₂ (opts.destination ++ o.relative_path) = Except.ok di)
    (hne : di ≠ si) :
    runLoop cp opts fs (o :: rest) =
      Except.error (FsError.badCopy o.absolute_path (opts.destination ++ o.relative_path)) := by
  have hne' : si ≠ di := fun h => hne h.symm
  have hstep : step cp opts fs o =
      Except.error (FsError.badCopy o.absolute_path (opts.destination ++ o.relative_path)) := by
    rw [step_file hf]
    simp [processFile, hsi, hns, hcp, hdi, hne']
  exact runLoop_cons_error hstep

/-- C2: for a file entry whose destination exists with a fingerprint equal to
the source's, the loop reports `exists`, performs no copy (the filesystem is
left unchanged and the copy primitive is irrelevant), removes the source file
exactly when `remove_copied_files` is set, and proceeds with the remaining
entries. -/
theorem already_synced_file_skips_copy
    (cp : CopyPrim) (opts : Opts) (fs : FS) (o : Object) (rest : List Object) (si : Nat)
    (hf : o.file_type = FType.file)
    (hsi : imprint fs o.absolute_path = Except.ok si)
    (hex : pathExists fs (opts.destination ++ o.relative_path) = true)
    (hdi : imprint fs (opts.destination ++ o.relative_path) = Except.ok si) :
    runLoop cp opts fs (o :: rest) =
      Except.bind (if opts.remove_copied_files then removeFile fs o.absolute_path
                   else Except.ok fs)
        (fun fs₁ => Except.map (fun pr => (pr.1, Report.exists' o.relative_path :: pr.2))
          (runLoop cp opts fs₁ rest)) := by
  have hsync := fileAlreadySynced_true_intro hex hdi
  cases hr : (if opts.remove_copied_files then removeFile fs o.absolute_path
              else Except.ok fs) with
  | error e =>
    have hstep : step cp opts fs o = Except.error e := by
      rw [step_file hf]
      simp [processFile, hsi, hsync, hr]
    rw [runLoop_cons_error hstep]
    rfl
  | ok fs₁ =>
    have hstep : step cp opts fs o = Except.ok (fs₁, [Report.exists' o.relative_path]) := by
      rw [step_file hf]
      simp [processFile, hsi, hsync, hr]
    rw [runLoop_cons_ok hstep]
    simp [Except.bind]

/-- C6: for a directory entry, if the computed destination path is absent the
engine creates it together with every missing ancestor directory and reports
`created`; if it is already present the engine leaves the filesystem alone and
reports nothing. -/
theorem directory_entry_creation
    (cp : CopyPrim) (opts : Opts) (fs : FS) (o : Object)
    (hd : o.file_type = FType.dir) (hne : opts.destination ≠ []) :
    (pathExists fs (opts.destination ++ o.relative_path) = false →
      step cp opts fs o =
        Except.ok (createDirAll fs (opts.destination ++ o.relative_path),
          [Report.created o.relative_path]) ∧
      pathExists (createDirAll fs (opts.destination ++ o.relative_path))
        (opts.destination ++ o.relative_path) = true ∧
      (∀ j, j < (opts.destination ++ o.relative_path).length →
        pathExists (createDirAll fs (opts.destination ++ o.relative_path))
          ((opts.destination ++ o.relative_path).take (j + 1)) = true)) ∧
    (pathExists fs (opts.destination ++ o.relative_path) = true →
      step cp opts fs o = Except.ok (fs, [])) := by
  constructor
  · intro hx
    refine ⟨step_dir_absent hd hx, ?_, ?_⟩
    · exact createDirAll_creates (fun h => hne (List.append_eq_nil.mp h).1)
    · exact createDirAll_ancestors _
  · intro hx
    exact step_dir_present hd hx

/-- C7: `Object::copy_to` refuses to copy an object onto its own path,
returning the "attempt to copy to self" error before invoking the underlying
copy primitive at all; and any error returned by `copy_to` for an entry that
requires a copy aborts the whole loop. -/
theorem copy_to_self_guard :
    (∀ (cp : CopyPrim) (fs : FS) (o : Object),
      Object.copy_to cp o fs o.absolute_path = Except.error FsError.copyToSelf) ∧
    (∀ (cp : CopyPrim) (opts : Opts) (fs : FS) (o : Object) (rest : List Object)
        (si : Nat) (e : FsError),
      o.file_type = FType.file →
      imprint fs o.absolute_path = Except.ok si →
      fileAlreadySynced fs si (opts.destination ++ o.relative_path) = Except.ok false →
      Object.copy_to cp o fs (opts.destination ++ o.relative_path) = Except.error e →
      runLoop cp opts fs (o :: rest) = Except.error e) := by
  constructor
  · intro cp fs o
    simp [Object.copy_to]
  · intro cp opts fs o rest si e hf hsi hns hcp
    have hstep : step cp opts fs o = Except.error e := by
      rw [step_file hf]
      simp [processFile, hsi, hns, hcp]
    exact runLoop_cons_error hstep

/-- C8: an errored walk item (an entry whose metadata could not be read) is
silently dropped from the processed sequence: the run over a walk containing
it is identical to the run over the walk without it, so a single unreadable
entry never aborts the run. -/
theorem walk_error_dropped
    (cp : CopyPrim) (opts : Opts) (xs ys : List (Except WalkErr DirEntry))
    (w : WalkErr) (fs : FS) :
    run cp opts (xs ++ Except.error w :: ys) fs = run cp opts (xs ++ ys) fs := by
  unfold run sourceEntries
  rw [List.filterMap_append, List.filterMap_append, List.filterMap_cons]

/-! ### The walk produces only entries under its root -/

mutual

theorem walkDir_root_pre (p : FPath) (t : FsTree) (e : DirEntry)
    (h : e ∈ walkDir p t) : p <+: e.path := by
  cases t with
  | file n c =>
    simp only [walkDir, List.mem_singleton] at h
    subst h
    exact List.prefix_rfl
  | dir n children =>
    simp only [walkDir, List.mem_cons] at h
    rcases h with h | h
    · subst h
      exact List.prefix_rfl
    · exact walkForest_root_pre p children e h

theorem walkForest_root_pre (p : FPath) (ts : List FsTree) (e : DirEntry)
    (h : e ∈ walkForest p ts) : p <+: e.path := by
  cases ts with
  | nil => simp [walkForest] at h
  | cons t ts' =>
    simp only [walkForest, List.mem_append] at h
    rcases h with h | h
    · exact (List.prefix_append p [t.name]).trans (walkDir_root_pre (p ++ [t.name]) t e h)
    · exact walkForest_root_pre p ts' e h

end

/-- C9: for every entry produced by walking a root, stripping the root from
the entry's path succeeds (`Object::new`'s unwrap never panics), because every
walked entry's path extends the root by construction. -/
theorem stripRoot_always_succeeds
    (p : FPath) (t : FsTree) (e : DirEntry) (h : e ∈ walkDir p t) :
    (Object.new p e).isSome = true := by
  have hpre : p <+: e.path := walkDir_root_pre p t e h
  have hb : p.isPrefixOf e.path = true := isPrefixOfIff.mpr hpre
  simp [Object.new, stripRoot, hb]

/-! ### Inversion of the engine's file branch -/

theorem copy_to_eq_ok {cp : CopyPrim} {o : Object} {fs fs₂ : FS} {d : FPath}
    (h : Object.copy_to cp o fs d = Except.ok fs₂) :
    o.absolute_path ≠ d ∧ cp fs o.absolute_path d = Except.ok fs₂ := by
  unfold Object.copy_to at h
  by_cases hd : o.absolute_path = d
  · rw [if_pos hd] at h
    exact absurd h (by simp)
  · rw [if_neg hd] at h
    exact ⟨hd, h⟩

theorem processFile_eq_ok {cp : CopyPrim} {opts : Opts} {fs fs' : FS} {o : Object}
    {d : FPath} {reps : List Report}
    (h : processFile cp opts fs o d = Except.ok (fs', reps)) :
    ∃ si, imprint fs o.absolute_path = Except.ok si ∧
      ((fileAlreadySynced fs si d = Except.ok true ∧
        reps = [Report.exists' o.relative_path] ∧
        ((opts.remove_copied_files = false ∧ fs' = fs) ∨
         (opts.remove_copied_files = true ∧
           removeFile fs o.absolute_path = Except.ok fs'))) ∨
       (fileAlreadySynced fs si d = Except.ok false ∧
        reps = [Report.copied o.relative_path] ∧
        ∃ fs₂, Object.copy_to cp o fs d = Except.ok fs₂ ∧
          imprint fs₂ d = Except.ok si ∧
          ((opts.remove_copied_files = false ∧ fs' = fs₂) ∨
           (opts.remove_copied_files = true ∧
             removeFile fs₂ o.absolute_path = Except.ok fs')))) := by
  unfold processFile at h
  split at h
  · exact absurd h (by simp)
  case _ si hsi =>
    refine ⟨si, hsi, ?_⟩
    split at h
    · exact absurd h (by simp)
    case _ hsync =>
      left
      refine ⟨hsync, ?_, ?_⟩
      · split at h
        · exact absurd h (by simp)
        · simp only [Except.ok.injEq, Prod.mk.injEq] at h
          exact h.2.symm
      · split at h
        · exact absurd h (by simp)
        case _ fs₁ hrm =>
          simp only [Except.ok.injEq, Prod.mk.injEq] at h
          obtain ⟨h₁, _⟩ := h
          subst h₁
          split at hrm
          case _ hb => exact Or.inr ⟨hb, hrm⟩
          case _ hb =>
            simp only [Except.ok.injEq] at hrm
            subst hrm
            exact Or.inl ⟨Bool.not_eq_true _ ▸ hb, rfl⟩
    case _ hsync =>
      right
      refine ⟨hsync, ?_⟩
      split at h
      · exact absurd h (by simp)
      case _ fs₂ hcp =>
        split at h
        · exact absurd h (by simp)
        case _ di hdi =>
          split at h
          case _ hsd =>
            subst hsd
            refine ⟨?_, fs₂, hcp, hdi, ?_⟩
            · split at h
              · exact absurd h (by simp)
              · simp only [Except.ok.injEq, Prod.mk.injEq] at h
                exact h.2.symm
            · split at h
              · exact absurd h (by simp)
              case _ fs₃ hrm =>
                simp only [Except.ok.injEq, Prod.mk.injEq] at h
                obtain ⟨h₁, _⟩ := h
                subst h₁
                split at hrm
                case _ hb => exact Or.inr ⟨hb, hrm⟩
                case _ hb =>
                  simp only [Except.ok.injEq] at hrm
                  subst hrm
                  exact Or.inl ⟨Bool.not_eq_true _ ▸ hb, rfl⟩
          case _ hsd =>
            exact absurd h (by simp)

theorem runLoop_cons_eq_ok {cp : CopyPrim} {opts : Opts} {fs fs' : FS} {o : Object}
    {rest : List Object} {reps : List Report}
    (h : runLoop cp opts fs (o :: rest) = Except.ok (fs', reps)) :
    ∃ fs₁ r₁ r₂, step cp opts fs o = Except.ok (fs₁, r₁) ∧
      runLoop cp opts fs₁ rest = Except.ok (fs', r₂) ∧ reps = r₁ ++ r₂ := by
  rw [runLoop] at h
  split at h
  · exact absurd h (by simp)
  case _ fs₁ r₁ hs =>
    split at h
    · exact absurd h (by simp)
    case _ fs₂ r₂ hr =>
      simp only [Except.ok.injEq, Prod.mk.injEq] at h
      obtain ⟨h₁, h₂⟩ := h
      subst h₁
      exact ⟨fs₁, r₁, r₂, hs, hr, h₂.symm⟩

/-! ### Frame lemmas: a non-removing run writes only below the destination -/

theorem step_frame {opts : Opts} {fs fs' : FS} {o : Object} {reps : List Report}
    {q : FPath}
    (hrem : opts.remove_copied_files = false)
    (h : step fsCopy opts fs o = Except.ok (fs', reps))
    (hq : ¬ q <+: opts.destination ++ o.relative_path) :
    fsLookup fs' q = fsLookup fs q := by
  cases hft : o.file_type with
  | dir =>
    by_cases hx : pathExists fs (opts.destination ++ o.relative_path) = true
    · rw [step_dir_present hft hx] at h
      cases h
      rfl
    · rw [step_dir_absent hft (Bool.not_eq_true _ ▸ hx)] at h
      cases h
      exact createDirAll_frame _ hq
  | file =>
    rw [step_file hft] at h
    obtain ⟨si, hsi, hcase⟩ := processFile_eq_ok h
    rcases hcase with ⟨_, _, hrm⟩ | ⟨_, _, fs₂, hcp, _, hrm⟩
    · rcases hrm with ⟨_, hfs⟩ | ⟨hct, _⟩
      · subst hfs; rfl
      · rw [hrem] at hct; exact absurd hct (by simp)
    · rcases hrm with ⟨_, hfs⟩ | ⟨hct, _⟩
      · subst hfs
        obtain ⟨hne, hfc⟩ := copy_to_eq_ok hcp
        obtain ⟨c, _, hins⟩ := fsCopy_eq_ok hfc
        subst hins
        rw [fsLookup_insert]
        have hdq : opts.destination ++ o.relative_path ≠ q := by
          intro he
          exact hq (he ▸ List.prefix_rfl)
        simp [hdq]
      · rw [hrem] at hct; exact absurd hct (by simp)
  | other =>
    rw [step_other hft] at h
    cases h
    rfl

theorem runLoop_frame {opts : Opts} {fs fs' : FS} {os : List Object}
    {reps : List Report} {q : FPath}
    (hrem : opts.remove_copied_files = false)
    (h : runLoop fsCopy opts fs os = Except.ok (fs', reps))
    (hq : ∀ o ∈ os, ¬ q <+: opts.destination ++ o.relative_path) :
    fsLookup fs' q = fsLookup fs q := by
  induction os generalizing fs reps with
  | nil =>
    rw [runLoop] at h
    cases h
    rfl
  | cons o rest ih =>
    obtain ⟨fs₁, r₁, r₂, hs, hr, _⟩ := runLoop_cons_eq_ok h
    have h₁ := step_frame hrem hs (hq o (List.mem_cons_self o rest))
    have h₂ := ih hr (fun o' ho' => hq o' (List.mem_cons_of_mem o ho'))
    rw [h₂, h₁]

/-! ### Separated roots -/

theorem rootsSeparate {src dst q₁ q₂ : FPath}
    (hsd : src.isPrefixOf dst = false) (hds : dst.isPrefixOf src = false) :
    ¬ (src ++ q₁ <+: dst ++ q₂) := by
  intro h
  have h₁ : src <+: dst ++ q₂ := (List.prefix_append src q₁).trans h
  have h₂ : dst <+: dst ++ q₂ := List.prefix_append dst q₂
  rcases prefixTotal h₁ h₂ with hc | hc
  · have := isPrefixOfIff.mpr hc
    rw [hsd] at this
    exact Bool.false_ne_true this
  · have := isPrefixOfIff.mpr hc
    rw [hds] at this
    exact Bool.false_ne_true this

theorem sourceEntries_abs {opts : Opts} {items : List (Except WalkErr DirEntry)} :
    ∀ o ∈ sourceEntries opts items,
      o.absolute_path = opts.source ++ o.relative_path := by
  intro o ho
  unfold sourceEntries at ho
  rw [List.mem_filterMap] at ho
  obtain ⟨item, _, hf⟩ := ho
  cases item with
  | error w => exact absurd hf (by simp)
  | ok e =>
    simp only at hf
    by_cases hh : (!opts.include_hidden_files && startsWithDot e.fileName) = true
    · rw [if_pos hh] at hf
      exact absurd hf (by simp)
    · rw [if_neg hh] at hf
      obtain ⟨_, habs, hsplit⟩ := Object.new_eq_some hf
      rw [habs, hsplit]

/-- C5: source-file effects of the remove flag.  (1) With
`remove_copied_files` set, a file entry that the loop body completes
successfully (a verified copy or a detected already-synced file) leaves no
file at the entry's source path.  (2) With the flag unset and destination and
source roots not nested within one another, a whole successful run leaves
every path under the source root exactly as it was. -/
theorem remove_copied_files_semantics :
    (∀ (cp : CopyPrim) (opts : Opts) (fs fs' : FS) (o : Object) (reps : List Report),
      opts.remove_copied_files = true → o.file_type = FType.file →
      step cp opts fs o = Except.ok (fs', reps) →
      fsLookup fs' o.absolute_path = none) ∧
    (∀ (opts : Opts) (items : List (Except WalkErr DirEntry)) (fs fs' : FS)
        (reps : List Report),
      opts.remove_copied_files = false →
      opts.source.isPrefixOf opts.destination = false →
      opts.destination.isPrefixOf opts.source = false →
      run fsCopy opts items fs = Except.ok (fs', reps) →
      ∀ r, fsLookup fs' (opts.source ++ r) = fsLookup fs (opts.source ++ r)) := by
  constructor
  · intro cp opts fs fs' o reps hrem hft h
    rw [step_file hft] at h
    obtain ⟨si, hsi, hcase⟩ := processFile_eq_ok h
    rcases hcase with ⟨_, _, hrm⟩ | ⟨_, _, fs₂, _, _, hrm⟩
    · rcases hrm with ⟨hct, _⟩ | ⟨_, hrf⟩
      · rw [hrem] at hct; exact absurd hct (by simp)
      · obtain ⟨_, hfs⟩ := removeFile_eq_ok hrf
        subst hfs
        rw [fsLookup_erase]
        simp
    · rcases hrm with ⟨hct, _⟩ | ⟨_, hrf⟩
      · rw [hrem] at hct; exact absurd hct (by simp)
      · obtain ⟨_, hfs⟩ := removeFile_eq_ok hrf
        subst hfs
        rw [fsLookup_erase]
        simp
  · intro opts items fs fs' reps hrem hsd hds h r
    exact runLoop_frame hrem h
      (fun o _ => @rootsSeparate opts.source opts.destination r o.relative_path hsd hds)

/-! ### The hidden-entry filter acts on single entries of the walk output -/

theorem mem_sourceEntries_hidden_name {opts : Opts}
    {items : List (Except WalkErr DirEntry)} {o : Object}
    (hh : opts.include_hidden_files = false)
    (ho : o ∈ sourceEntries opts items) :
    startsWithDot (o.absolute_path.getLastD "") = false := by
  unfold sourceEntries at ho
  rw [List.mem_filterMap] at ho
  obtain ⟨item, _, hf⟩ := ho
  cases item with
  | error w => exact absurd hf (by simp)
  | ok e =>
    simp only at hf
    by_cases hc : (!opts.include_hidden_files && startsWithDot e.fileName) = true
    · rw [if_pos hc] at hf
      exact absurd hf (by simp)
    · rw [if_neg hc] at hf
      obtain ⟨_, habs, _⟩ := Object.new_eq_some hf
      rw [hh] at hc
      simp only [Bool.not_false, Bool.true_and] at hc
      rw [habs]
      exact Bool.not_eq_true _ ▸ hc

theorem mem_sourceEntries_intro {opts : Opts}
    {items : List (Except WalkErr DirEntry)} {e : DirEntry} {o : Object}
    (hmem : Except.ok e ∈ items)
    (hcond : (!opts.include_hidden_files && startsWithDot e.fileName) = false)
    (hnew : Object.new opts.source e = some o) :
    o ∈ sourceEntries opts items := by
  unfold sourceEntries
  rw [List.mem_filterMap]
  refine ⟨Except.ok e, hmem, ?_⟩
  simp only
  rw [if_neg, hnew]
  simp [hcond]

/-- C3, counterexample: with hidden entries excluded, a source tree
`s/.h/sub` produces a run in which the hidden directory `.h` is itself
skipped, yet its descendant `sub` is still visited and created at the
destination (`d/.h/sub` exists afterwards) — the exclusion is not performed
at the walker level and does not remove the hidden directory's subtree. -/
theorem hidden_descendant_reaches_destination :
    run fsCopy
      { source := ["s"], destination := ["d"],
        include_hidden_files := false, remove_copied_files := false }
      ((walkDir ["s"] (FsTree.dir "s" [FsTree.dir ".h" [FsTree.dir "sub" []]])).map
        Except.ok)
      (treeFS ["s"] (FsTree.dir "s" [FsTree.dir ".h" [FsTree.dir "sub" []]]) ++
        [(["d"], Node.dir)]) =
      Except.ok ([(["d", ".h", "sub"], Node.dir), (["d", ".h"], Node.dir),
        (["s"], Node.dir), (["s", ".h"], Node.dir), (["s", ".h", "sub"], Node.dir),
        (["d"], Node.dir)], [Report.created [".h", "sub"]]) ∧
    pathExists [(["d", ".h", "sub"], Node.dir), (["d", ".h"], Node.dir),
        (["s"], Node.dir), (["s", ".h"], Node.dir), (["s", ".h", "sub"], Node.dir),
        (["d"], Node.dir)] ["d", ".h", "sub"] = true :=
  ⟨rfl, rfl⟩

/-- C3, amended: the hidden filter is applied per entry to the walk's output,
not at the walker level.  When `include_hidden_files` is false, an entry
survives iff its own final name component does not start with the marker — so
the hidden entry itself is never processed, but entries below a hidden
directory whose own names are not hidden are still processed; when the flag
is true, no filtering occurs. -/
theorem hidden_filter_per_entry
    (opts : Opts) (items : List (Except WalkErr DirEntry)) :
    (opts.include_hidden_files = false →
      (∀ o ∈ sourceEntries opts items,
        startsWithDot (o.absolute_path.getLastD "") = false) ∧
      (∀ (e : DirEntry) (o : Object), Except.ok e ∈ items →
        startsWithDot e.fileName = false → Object.new opts.source e = some o →
        o ∈ sourceEntries opts items)) ∧
    (opts.include_hidden_files = true →
      ∀ (e : DirEntry) (o : Object), Except.ok e ∈ items →
        Object.new opts.source e = some o → o ∈ sourceEntries opts items) := by
  constructor
  · intro hh
    constructor
    · intro o ho
      exact mem_sourceEntries_hidden_name hh ho
    · intro e o hmem hswd hnew
      refine mem_sourceEntries_intro hmem ?_ hnew
      rw [hswd]
      simp
  · intro hh e o hmem hnew
    refine mem_sourceEntries_intro hmem ?_ hnew
    rw [hh]
    simp

theorem hidden_filter_per_entry_witness :
    (⟨FType.file, ["s", "a"], ["a"]⟩ : Object) ∈
      sourceEntries
        { source := ["s"], destination := ["d"],
          include_hidden_files := false, remove_copied_files := false }
        [Except.ok ⟨["s", "a"], FType.file⟩] :=
  ((hidden_filter_per_entry
      { source := ["s"], destination := ["d"],
        include_hidden_files := false, remove_copied_files := false }
      [Except.ok ⟨["s", "a"], FType.file⟩]).1 rfl).2
    ⟨["s", "a"], FType.file⟩ ⟨FType.file, ["s", "a"], ["a"]⟩
    (List.mem_cons_self _ _) rfl rfl

/-- C10, counterexample: with hidden entries excluded and a source root whose
final component starts with the marker (root `.h` holding file `a`), the run
still syncs the root's contents: `a` is copied and `d/a` holds its content
afterwards, so such a run does not "sync nothing" from the hidden root. -/
theorem hidden_root_still_syncs_children :
    run fsCopy
      { source := [".h"], destination := ["d"],
        include_hidden_files := false, remove_copied_files := false }
      ((walkDir [".h"] (FsTree.dir ".h" [FsTree.file "a" 7])).map Except.ok)
      (treeFS [".h"] (FsTree.dir ".h" [FsTree.file "a" 7]) ++ [(["d"], Node.dir)]) =
      Except.ok ([(["d", "a"], Node.file 7), ([".h"], Node.dir),
        ([".h", "a"], Node.file 7), (["d"], Node.dir)], [Report.copied ["a"]]) ∧
    fsLookup [(["d", "a"], Node.file 7), ([".h"], Node.dir),
        ([".h", "a"], Node.file 7), (["d"], Node.dir)] ["d", "a"] =
      some (Node.file 7) :=
  ⟨rfl, rfl⟩

/-- C10, amended: the hidden filter does apply to the walk's entry for the
source root itself — when `include_hidden_files` is false and the root's
final component starts with the marker, no object with an empty relative path
(the root's own entry) is ever processed — but the root's descendants with
non-hidden names are still walked, processed and synced. -/
theorem hidden_root_entry_dropped
    (opts : Opts) (t : FsTree)
    (hh : opts.include_hidden_files = false)
    (hroot : startsWithDot (opts.source.getLastD "") = true) :
    (∀ o ∈ sourceEntries opts ((walkDir opts.source t).map Except.ok),
      o.relative_path ≠ []) ∧
    (∀ (e : DirEntry) (o : Object), e ∈ walkDir opts.source t →
      startsWithDot e.fileName = false → Object.new opts.source e = some o →
      o ∈ sourceEntries opts ((walkDir opts.source t).map Except.ok)) := by
  constructor
  · intro o ho hrel
    have habs := sourceEntries_abs o ho
    rw [hrel, List.append_nil] at habs
    have hname := mem_sourceEntries_hidden_name hh ho
    rw [habs, hroot] at hname
    simp at hname
  · intro e o hmem hswd hnew
    refine mem_sourceEntries_intro (List.mem_map_of_mem Except.ok hmem) ?_ hnew
    rw [hswd]
    simp

theorem hidden_root_entry_dropped_witness :
    (⟨FType.file, [".h", "a"], ["a"]⟩ : Object) ∈
      sourceEntries
        { source := [".h"], destination := ["d"],
          include_hidden_files := false, remove_copied_files := false }
        ((walkDir [".h"] (FsTree.dir ".h" [FsTree.file "a" 7])).map Except.ok) :=
  (hidden_root_entry_dropped
      { source := [".h"], destination := ["d"],
        include_hidden_files := false, remove_copied_files := false }
      (FsTree.dir ".h" [FsTree.file "a" 7]) rfl rfl).2
    ⟨[".h", "a"], FType.file⟩ ⟨FType.file, [".h", "a"], ["a"]⟩
    (by decide) rfl rfl

/-! ### Witnesses -/

theorem badCopy_aborts_run_witness :
    runLoop corruptingCopy
      { source := ["s"], destination := ["d"],
        include_hidden_files := true, remove_copied_files := false }
      [(["s", "a"], Node.file 1), (["d"], Node.dir)]
      [⟨FType.file, ["s", "a"], ["a"]⟩] =
      Except.error (FsError.badCopy ["s", "a"] ["d", "a"]) :=
  badCopy_aborts_run corruptingCopy
    { source := ["s"], destination := ["d"],
      include_hidden_files := true, remove_copied_files := false }
    [(["s", "a"], Node.file 1), (["d"], Node.dir)]
    [(["d", "a"], Node.file 99), (["s", "a"], Node.file 1), (["d"], Node.dir)]
    ⟨FType.file, ["s", "a"], ["a"]⟩ [] 1 99 rfl rfl rfl rfl rfl (by decide)

theorem already_synced_file_skips_copy_witness :
    runLoop fsCopy
      { source := ["s"], destination := ["d"],
        include_hidden_files := true, remove_copied_files := true }
      [(["s", "a"], Node.file 5), (["d", "a"], Node.file 5), (["d"], Node.dir)]
      [⟨FType.file, ["s", "a"], ["a"]⟩] =
      Except.ok ([(["d", "a"], Node.file 5), (["d"], Node.dir)],
        [Report.exists' ["a"]]) :=
  (already_synced_file_skips_copy fsCopy
    { source := ["s"], destination := ["d"],
      include_hidden_files := true, remove_copied_files := true }
    [(["s", "a"], Node.file 5), (["d", "a"], Node.file 5), (["d"], Node.dir)]
    ⟨FType.file, ["s", "a"], ["a"]⟩ [] 5 rfl rfl rfl rfl).trans rfl

theorem remove_copied_files_semantics_witness :
    fsLookup [(["d", "a"], Node.file 5), (["d"], Node.dir)] ["s", "a"] = none ∧
    fsLookup [(["d", "a"], Node.file 5), (["s", "a"], Node.file 5), (["d"], Node.dir)]
        (["s"] ++ ["a"]) =
      fsLookup [(["s", "a"], Node.file 5), (["d"], Node.dir)] (["s"] ++ ["a"]) :=
  ⟨remove_copied_files_semantics.1 fsCopy
      { source := ["s"], destination := ["d"],
        include_hidden_files := true, remove_copied_files := true }
      [(["s", "a"], Node.file 5), (["d", "a"], Node.file 5), (["d"], Node.dir)]
      [(["d", "a"], Node.file 5), (["d"], Node.dir)]
      ⟨FType.file, ["s", "a"], ["a"]⟩ [Report.exists' ["a"]] rfl rfl rfl,
   remove_copied_files_semantics.2
      { source := ["s"], destination := ["d"],
        include_hidden_files := true, remove_copied_files := false }
      [Except.ok ⟨["s", "a"], FType.file⟩]
      [(["s", "a"], Node.file 5), (["d"], Node.dir)]
      [(["d", "a"], Node.file 5), (["s", "a"], Node.file 5), (["d"], Node.dir)]
      [Report.copied ["a"]] rfl rfl rfl rfl ["a"]⟩

theorem directory_entry_creation_witness :
    step fsCopy
      { source := ["s"], destination := ["d"],
        include_hidden_files := true, remove_copied_files := false }
      [(["d"], Node.dir)] ⟨FType.dir, ["s", "x"], ["x"]⟩ =
      Except.ok ([(["d", "x"], Node.dir), (["d"], Node.dir)],
        [Report.created ["x"]]) ∧
    pathExists [(["d", "x"], Node.dir), (["d"], Node.dir)] ["d", "x"] = true :=
  ⟨(((directory_entry_creation fsCopy
        { source := ["s"], destination := ["d"],
          include_hidden_files := true, remove_copied_files := false }
        [(["d"], Node.dir)] ⟨FType.dir, ["s", "x"], ["x"]⟩ rfl (by decide)).1
      rfl).1).trans rfl,
   ((directory_entry_creation fsCopy
        { source := ["s"], destination := ["d"],
          include_hidden_files := true, remove_copied_files := false }
        [(["d"], Node.dir)] ⟨FType.dir, ["s", "x"], ["x"]⟩ rfl (by decide)).1
      rfl).2.1⟩

theorem copy_to_self_guard_witness :
    Object.copy_to fsCopy ⟨FType.file, ["s", "a"], ["a"]⟩ [] ["s", "a"] =
      Except.error FsError.copyToSelf ∧
    runLoop failingCopy
      { source := ["s"], destination := ["d"],
        include_hidden_files := true, remove_copied_files := false }
      [(["s", "a"], Node.file 1), (["d"], Node.dir)]
      [⟨FType.file, ["s", "a"], ["a"]⟩] =
      Except.error (FsError.notFound []) :=
  ⟨copy_to_self_guard.1 fsCopy [] ⟨FType.file, ["s", "a"], ["a"]⟩,
   copy_to_self_guard.2 failingCopy
     { source := ["s"], destination := ["d"],
       include_hidden_files := true, remove_copied_files := false }
     [(["s", "a"], Node.file 1), (["d"], Node.dir)]
     ⟨FType.file, ["s", "a"], ["a"]⟩ [] 1 (FsError.notFound [])
     rfl rfl rfl rfl⟩

theorem stripRoot_always_succeeds_witness :
    (Object.new ["s"] ⟨["s"], FType.dir⟩).isSome = true :=
  stripRoot_always_succeeds ["s"] (FsTree.dir "s" []) ⟨["s"], FType.dir⟩ (by decide)

/-! ### Monotonicity and preservation of syncedness for non-removing runs -/

theorem step_mono {opts : Opts} {fs fs' : FS} {o : Object} {reps : List Report}
    {q : FPath}
    (hrem : opts.remove_copied_files = false)
    (h : step fsCopy opts fs o = Except.ok (fs', reps))
    (hq : pathExists fs q = true) :
    pathExists fs' q = true := by
  cases hft : o.file_type with
  | dir =>
    by_cases hx : pathExists fs (opts.destination ++ o.relative_path) = true
    · rw [step_dir_present hft hx] at h
      cases h
      exact hq
    · rw [step_dir_absent hft (Bool.not_eq_true _ ▸ hx)] at h
      cases h
      exact createDirAll_mono _ hq
  | file =>
    rw [step_file hft] at h
    obtain ⟨si, hsi, hcase⟩ := processFile_eq_ok h
    rcases hcase with ⟨_, _, hrm⟩ | ⟨_, _, fs₂, hcp, _, hrm⟩
    · rcases hrm with ⟨_, hfs⟩ | ⟨hct, _⟩
      · subst hfs; exact hq
      · rw [hrem] at hct; exact absurd hct (by simp)
    · rcases hrm with ⟨_, hfs⟩ | ⟨hct, _⟩
      · subst hfs
        obtain ⟨_, hfc⟩ := copy_to_eq_ok hcp
        obtain ⟨c, _, hins⟩ := fsCopy_eq_ok hfc
        subst hins
        rw [pathExists_insert]
        by_cases hd : opts.destination ++ o.relative_path = q <;> simp [hd, hq]
      · rw [hrem] at hct; exact absurd hct (by simp)
  | other =>
    rw [step_other hft] at h
    cases h
    exact hq

theorem step_preserves_synced {opts : Opts} {fs fs' : FS} {o o₀ : Object}
    {reps : List Report}
    (hrem : opts.remove_copied_files = false)
    (hsd : opts.source.isPrefixOf opts.destination = false)
    (hds : opts.destination.isPrefixOf opts.source = false)
    (habs : o.absolute_path = opts.source ++ o.relative_path)
    (habs₀ : o₀.absolute_path = opts.source ++ o₀.relative_path)
    (h : step fsCopy opts fs o = Except.ok (fs', reps))
    (hs : synced opts fs o₀) :
    synced opts fs' o₀ := by
  obtain ⟨c, hsrc, hdst⟩ := hs
  have hnp : ¬ o₀.absolute_path <+: opts.destination ++ o.relative_path := by
    rw [habs₀]
    exact rootsSeparate hsd hds
  have hsrc' : fsLookup fs' o₀.absolute_path = some (Node.file c) := by
    rw [step_frame hrem h hnp]
    exact hsrc
  refine ⟨c, hsrc', ?_⟩
  cases hft : o.file_type with
  | dir =>
    by_cases hx : pathExists fs (opts.destination ++ o.relative_path) = true
    · rw [step_dir_present hft hx] at h
      cases h
      exact hdst
    · rw [step_dir_absent hft (Bool.not_eq_true _ ▸ hx)] at h
      cases h
      exact createDirAll_preserves _ hdst
  | file =>
    rw [step_file hft] at h
    obtain ⟨si, hsi, hcase⟩ := processFile_eq_ok h
    rcases hcase with ⟨_, _, hrm⟩ | ⟨_, _, fs₂, hcp, _, hrm⟩
    · rcases hrm with ⟨_, hfs⟩ | ⟨hct, _⟩
      · subst hfs; exact hdst
      · rw [hrem] at hct; exact absurd hct (by simp)
    · rcases hrm with ⟨_, hfs⟩ | ⟨hct, _⟩
      · subst hfs
        obtain ⟨_, hfc⟩ := copy_to_eq_ok hcp
        obtain ⟨c', hread, hins⟩ := fsCopy_eq_ok hfc
        subst hins
        rw [fsLookup_insert]
        by_cases hd : opts.destination ++ o.relative_path =
            opts.destination ++ o₀.relative_path
        · rw [if_pos hd]
          have hrel : o.relative_path = o₀.relative_path :=
            List.append_right_injective opts.destination hd
          have habs' : o.absolute_path = o₀.absolute_path := by
            rw [habs, habs₀, hrel]
          rw [habs', hsrc] at hread
          cases hread
          rfl
        · rw [if_neg hd]
          exact hdst
      · rw [hrem] at hct; exact absurd hct (by simp)
  | other =>
    rw [step_other hft] at h
    cases h
    exact hdst

theorem step_establishes_file {opts : Opts} {fs fs' : FS} {o : Object}
    {reps : List Report}
    (hrem : opts.remove_copied_files = false)
    (hsd : opts.source.isPrefixOf opts.destination = false)
    (hds : opts.destination.isPrefixOf opts.source = false)
    (habs : o.absolute_path = opts.source ++ o.relative_path)
    (hf : o.file_type = FType.file)
    (h : step fsCopy opts fs o = Except.ok (fs', reps)) :
    synced opts fs' o := by
  rw [step_file hf] at h
  obtain ⟨si, hsi, hcase⟩ := processFile_eq_ok h
  have hread : fsLookup fs o.absolute_path = some (Node.file si) := imprint_eq_ok.mp hsi
  have hne : o.absolute_path ≠ opts.destination ++ o.relative_path := by
    intro he
    exact @rootsSeparate opts.source opts.destination o.relative_path o.relative_path
      hsd hds (habs ▸ he ▸ List.prefix_rfl)
  rcases hcase with ⟨hsync, _, hrm⟩ | ⟨_, _, fs₂, hcp, _, hrm⟩
  · obtain ⟨_, hdi⟩ := fileAlreadySynced_eq_ok_true hsync
    rcases hrm with ⟨_, hfs⟩ | ⟨hct, _⟩
    · subst hfs
      exact ⟨si, hread, imprint_eq_ok.mp hdi⟩
    · rw [hrem] at hct; exact absurd hct (by simp)
  · rcases hrm with ⟨_, hfs⟩ | ⟨hct, _⟩
    · subst hfs
      obtain ⟨_, hfc⟩ := copy_to_eq_ok hcp
      obtain ⟨c', hread', hins⟩ := fsCopy_eq_ok hfc
      rw [hread] at hread'
      cases hread'
      subst hins
      refine ⟨si, ?_, ?_⟩
      · rw [fsLookup_insert, if_neg (fun he => hne he.symm)]
        exact hread
      · rw [fsLookup_insert, if_pos rfl]
    · rw [hrem] at hct; exact absurd hct (by simp)

theorem step_establishes_dir {opts : Opts} {fs fs' : FS} {o : Object}
    {reps : List Report}
    (hdstne : opts.destination ≠ [])
    (hd : o.file_type = FType.dir)
    (h : step fsCopy opts fs o = Except.ok (fs', reps)) :
    pathExists fs' (opts.destination ++ o.relative_path) = true := by
  by_cases hx : pathExists fs (opts.destination ++ o.relative_path) = true
  · rw [step_dir_present hd hx] at h
    cases h
    exact hx
  · rw [step_dir_absent hd (Bool.not_eq_true _ ▸ hx)] at h
    cases h
    exact createDirAll_creates (fun he => hdstne (List.append_eq_nil.mp he).1)

theorem runLoop_mono {opts : Opts} {fs fs' : FS} {os : List Object}
    {reps : List Report} {q : FPath}
    (hrem : opts.remove_copied_files = false)
    (h : runLoop fsCopy opts fs os = Except.ok (fs', reps))
    (hq : pathExists fs q = true) :
    pathExists fs' q = true := by
  induction os generalizing fs reps with
  | nil => rw [runLoop] at h; cases h; exact hq
  | cons o rest ih =>
    obtain ⟨fs₁, r₁, r₂, hs, hr, _⟩ := runLoop_cons_eq_ok h
    exact ih hr (step_mono hrem hs hq)

theorem runLoop_preserves_synced {opts : Opts} {fs fs' : FS} {os : List Object}
    {reps : List Report} {o₀ : Object}
    (hrem : opts.remove_copied_files = false)
    (hsd : opts.source.isPrefixOf opts.destination = false)
    (hds : opts.destination.isPrefixOf opts.source = false)
    (hall : ∀ o ∈ os, o.absolute_path = opts.source ++ o.relative_path)
    (habs₀ : o₀.absolute_path = opts.source ++ o₀.relative_path)
    (h : runLoop fsCopy opts fs os = Except.ok (fs', reps))
    (hs : synced opts fs o₀) :
    synced opts fs' o₀ := by
  induction os generalizing fs reps with
  | nil => rw [runLoop] at h; cases h; exact hs
  | cons o rest ih =>
    obtain ⟨fs₁, r₁, r₂, hstep, hr, _⟩ := runLoop_cons_eq_ok h
    exact ih (fun o' ho' => hall o' (List.mem_cons_of_mem o ho')) hr
      (step_preserves_synced hrem hsd hds (hall o (List.mem_cons_self o rest))
        habs₀ hstep hs)

theorem runLoop_post {opts : Opts} {fs fs' : FS} {os : List Object}
    {reps : List Report}
    (hrem : opts.remove_copied_files = false)
    (hdstne : opts.destination ≠ [])
    (hsd : opts.source.isPrefixOf opts.destination = false)
    (hds : opts.destination.isPrefixOf opts.source = false)
    (hall : ∀ o ∈ os, o.absolute_path = opts.source ++ o.relative_path)
    (h : runLoop fsCopy opts fs os = Except.ok (fs', reps)) :
    ∀ o ∈ os,
      (o.file_type = FType.file → synced opts fs' o) ∧
      (o.file_type = FType.dir →
        pathExists fs' (opts.destination ++ o.relative_path) = true) := by
  induction os generalizing fs reps with
  | nil => intro o ho; exact absurd ho (List.not_mem_nil o)
  | cons o rest ih =>
    obtain ⟨fs₁, r₁, r₂, hstep, hr, _⟩ := runLoop_cons_eq_ok h
    intro o' ho'
    rcases List.mem_cons.mp ho' with he | hm
    · subst he
      constructor
      · intro hf
        exact runLoop_preserves_synced hrem hsd hds
          (fun o'' ho'' => hall o'' (List.mem_cons_of_mem o' ho''))
          (hall o' (List.mem_cons_self o' rest)) hr
          (step_establishes_file hrem hsd hds
            (hall o' (List.mem_cons_self o' rest)) hf hstep)
      · intro hd
        exact runLoop_mono hrem hr (step_establishes_dir hdstne hd hstep)
    · exact ih (fun o'' ho'' => hall o'' (List.mem_cons_of_mem o ho'')) hr o' hm

theorem runLoop_all_synced {opts : Opts} {fs : FS} {os : List Object}
    (hrem : opts.remove_copied_files = false)
    (hpost : ∀ o ∈ os,
      (o.file_type = FType.file → synced opts fs o) ∧
      (o.file_type = FType.dir →
        pathExists fs (opts.destination ++ o.relative_path) = true)) :
    runLoop fsCopy opts fs os =
      Except.ok (fs, os.filterMap
        (fun o => if o.file_type = FType.file
                  then some (Report.exists' o.relative_path) else none)) := by
  induction os with
  | nil => rw [runLoop]; rfl
  | cons o rest ih =>
    have hrest := ih (fun o' ho' => hpost o' (List.mem_cons_of_mem o ho'))
    cases hft : o.file_type with
    | dir =>
      have hx := (hpost o (List.mem_cons_self o rest)).2 hft
      rw [runLoop_cons_ok (step_dir_present hft hx), hrest]
      simp [List.filterMap_cons, hft, Except.map]
    | file =>
      obtain ⟨c, hsrc, hdst⟩ := (hpost o (List.mem_cons_self o rest)).1 hft
      have hsi : imprint fs o.absolute_path = Except.ok c := imprint_eq_ok.mpr hsrc
      have hex : pathExists fs (opts.destination ++ o.relative_path) = true := by
        simp [pathExists, hdst]
      have hdi : imprint fs (opts.destination ++ o.relative_path) = Except.ok c :=
        imprint_eq_ok.mpr hdst
      have hsync := fileAlreadySynced_true_intro hex hdi
      have hstep : step fsCopy opts fs o =
          Except.ok (fs, [Report.exists' o.relative_path]) := by
        rw [step_file hft]
        simp [processFile, hsi, hsync, hrem]
      rw [runLoop_cons_ok hstep, hrest]
      simp [List.filterMap_cons, hft, Except.map]
    | other =>
      rw [runLoop_cons_ok (step_other hft), hrest]
      simp [List.filterMap_cons, hft, Except.map]

/-- C4: idempotence.  If a run with removal disabled (over any walk output,
with destination and source roots not nested within one another) succeeds,
then running the engine again on the resulting filesystem succeeds, changes
nothing, performs no copy and no directory creation, and reports exactly one
`exists` line per file entry. -/
theorem second_run_all_exists
    (opts : Opts) (items : List (Except WalkErr DirEntry)) (fs₀ fs₁ : FS)
    (r₁ : List Report)
    (hrem : opts.remove_copied_files = false)
    (hdstne : opts.destination ≠ [])
    (hsd : opts.source.isPrefixOf opts.destination = false)
    (hds : opts.destination.isPrefixOf opts.source = false)
    (h1 : run fsCopy opts items fs₀ = Except.ok (fs₁, r₁)) :
    run fsCopy opts items fs₁ =
      Except.ok (fs₁, (sourceEntries opts items).filterMap
        (fun o => if o.file_type = FType.file
                  then some (Report.exists' o.relative_path) else none)) := by
  unfold run at h1 ⊢
  exact runLoop_all_synced hrem
    (runLoop_post hrem hdstne hsd hds sourceEntries_abs h1)

theorem second_run_all_exists_witness :
    run fsCopy
      { source := ["s"], destination := ["d"],
        include_hidden_files := true, remove_copied_files := false }
      ((walkDir ["s"]
        (FsTree.dir "s" [FsTree.file "a" 7,
          FsTree.dir "sub" [FsTree.file "b" 8]])).map Except.ok)
      [(["d", "sub", "b"], Node.file 8), (["d", "sub"], Node.dir),
       (["d", "a"], Node.file 7), (["s"], Node.dir), (["s", "a"], Node.file 7),
       (["s", "sub"], Node.dir), (["s", "sub", "b"], Node.file 8),
       (["d"], Node.dir)] =
      Except.ok ([(["d", "sub", "b"], Node.file 8), (["d", "sub"], Node.dir),
        (["d", "a"], Node.file 7), (["s"], Node.dir), (["s", "a"], Node.file 7),
        (["s", "sub"], Node.dir), (["s", "sub", "b"], Node.file 8),
        (["d"], Node.dir)],
        [Report.exists' ["a"], Report.exists' ["sub", "b"]]) :=
  (second_run_all_exists
    { source := ["s"], destination := ["d"],
      include_hidden_files := true, remove_copied_files := false }
    ((walkDir ["s"]
      (FsTree.dir "s" [FsTree.file "a" 7,
        FsTree.dir "sub" [FsTree.file "b" 8]])).map Except.ok)
    (treeFS ["s"]
      (FsTree.dir "s" [FsTree.file "a" 7, FsTree.dir "sub" [FsTree.file "b" 8]]) ++
      [(["d"], Node.dir)])
    [(["d", "sub", "b"], Node.file 8), (["d", "sub"], Node.dir),
     (["d", "a"], Node.file 7), (["s"], Node.dir), (["s", "a"], Node.file 7),
     (["s", "sub"], Node.dir), (["s", "sub", "b"], Node.file 8),
     (["d"], Node.dir)]
    [Report.copied ["a"], Report.created ["sub"], Report.copied ["sub", "b"]]
    rfl (by decide) (by decide) (by decide) rfl).trans rfl
